import Mathlib

/-!
# Verification of the Tennis Web connection-graph pipeline

Shallow embedding of `src/process_tennis_web_data.py`, the graph
construction and selection engine of the repository: it ingests match,
player and Grand Slam final records, builds a multi-relation connection
graph over players, ranks the players by direct-opponent count, and
serializes a bounded candidate set.

Conventions of the embedding:
* python dicts keyed by player id become Lean functions `Nat → _`
  (a `defaultdict` default is the function's value outside its key set,
  together with an explicit key set where the claims need one);
* python sets of ids become `Finset Nat`, python lists stay `List`;
* a missing / NaN field becomes `Option`, and python truthiness tests on
  attribute values (`if data.get('country'):`) are spelled out
  (`some ""` and `some 0` are falsy);
* the input record streams are `List`s in processing order, matching the
  row iteration order of the source.
-/

set_option maxHeartbeats 1000000
set_option maxRecDepth 100000
set_option linter.unnecessarySeqFocus false
set_option linter.unusedSectionVars false
set_option linter.unusedVariables false

namespace TennisWeb

/-- A row of the match data frame, as consumed by the extractors.
Fields mirror the columns read in `process_tennis_web_data.py`:
`winner_id` / `loser_id` may be NaN (`none`), the remaining columns are
read with a default of `''` (resp. a year column added at load time). -/
structure MatchRecord where
  winner_id : Option Nat
  loser_id : Option Nat
  tourney_name : String
  year : Nat
  surface : String
  round : String
  score : String
deriving DecidableEq, Repr

/-- An entry of `players_data` (`load_player_data`): every field other
than the id can be absent. -/
structure PlayerData where
  name : Option String
  country : Option String
  hand : Option String
  height : Option Nat
  birth_year : Option Nat
  titles : Option Nat
deriving DecidableEq, Repr

/-- A Grand Slam final record (`load_grand_slam_data`): tournament plus
finalist names (names, not ids). -/
structure FinalRecord where
  tournament : String
  winner_name : String
  loser_name : String
deriving DecidableEq, Repr

/-- A match-detail entry as appended by
`extract_head_to_head_connections` (lines 146-160). -/
structure MatchDetail where
  opponent_id : Nat
  tournament : String
  year : Nat
  surface : String
  round : String
  score : String
  result : String
deriving DecidableEq, Repr

/-- The guard of line 137: both ids present (`pd.notna` on each). -/
def usable (m : MatchRecord) : Bool :=
  m.winner_id.isSome && m.loser_id.isSome

/-! ## Head-to-Head Extractor (`extract_head_to_head_connections`) -/

/-- `h2h_connections[u].add v` (one `defaultdict(set)` update). -/
def addOpp (acc : Nat → Finset Nat) (u v : Nat) : Nat → Finset Nat :=
  fun p => if p = u then insert v (acc p) else acc p

/-- Effect of one match row on `h2h_connections` (lines 133-143):
when both ids are present, `h2h[w].add(l)` then `h2h[l].add(w)`. -/
def h2hStep (acc : Nat → Finset Nat) (m : MatchRecord) : Nat → Finset Nat :=
  match m.winner_id, m.loser_id with
  | some w, some l => addOpp (addOpp acc w l) l w
  | _, _ => acc

/-- The `h2h_connections` map after the whole match stream. -/
def h2h_connections (ms : List MatchRecord) : Nat → Finset Nat :=
  ms.foldl h2hStep (fun _ => ∅)

/-- Key creation of the `h2h_connections` defaultdict for one row: both
endpoints of a usable match get an entry. -/
def keyStep (acc : Finset Nat) (m : MatchRecord) : Finset Nat :=
  match m.winner_id, m.loser_id with
  | some w, some l => insert l (insert w acc)
  | _, _ => acc

/-- Key set of the `h2h_connections` defaultdict: ids touched by some
usable match. The `match_details` defaultdict (lines 131, 155, 160) is
keyed by exactly the same ids. -/
def h2h_keys (ms : List MatchRecord) : Finset Nat :=
  ms.foldl keyStep ∅

/-- Winner-side match detail of a usable match (lines 146-154). -/
def winnerDetail (m : MatchRecord) (l : Nat) : MatchDetail :=
  ⟨l, m.tourney_name, m.year, m.surface, m.round, m.score, "W"⟩

/-- Loser-side match detail: the winner's entry with `opponent_id` and
`result` replaced (lines 157-159). -/
def loserDetail (m : MatchRecord) (w : Nat) : MatchDetail :=
  ⟨w, m.tourney_name, m.year, m.surface, m.round, m.score, "L"⟩

/-- `match_details[p].append d` for one player. -/
def appendDetail (acc : Nat → List MatchDetail) (p : Nat) (d : MatchDetail) :
    Nat → List MatchDetail :=
  fun q => if q = p then acc q ++ [d] else acc q

/-- Effect of one match row on `match_details` (lines 146-160): winner
entry appended first, then the loser entry. -/
def detailStep (acc : Nat → List MatchDetail) (m : MatchRecord) :
    Nat → List MatchDetail :=
  match m.winner_id, m.loser_id with
  | some w, some l => appendDetail (appendDetail acc w (winnerDetail m l)) l (loserDetail m w)
  | _, _ => acc

/-- The full (pre-truncation) `match_details` map, in input processing
order (oldest first). -/
def match_details (ms : List MatchRecord) : Nat → List MatchDetail :=
  ms.foldl detailStep (fun _ => [])

/-! ### Characterization of the head-to-head adjacency -/

theorem mem_addOpp {acc : Nat → Finset Nat} {u v p q : Nat} :
    q ∈ addOpp acc u v p ↔ (p = u ∧ q = v) ∨ q ∈ acc p := by
  unfold addOpp
  by_cases h : p = u <;> simp [h]

theorem mem_h2hStep {acc : Nat → Finset Nat} {m : MatchRecord} {p q : Nat} :
    q ∈ h2hStep acc m p ↔
      (∃ w l, m.winner_id = some w ∧ m.loser_id = some l ∧
        ((p = w ∧ q = l) ∨ (p = l ∧ q = w))) ∨ q ∈ acc p := by
  obtain ⟨wi, li, tn, yr, sf, rd, sc⟩ := m
  rcases wi with _ | w <;> rcases li with _ | l <;>
    simp [h2hStep, mem_addOpp] <;> tauto

theorem mem_h2h_foldl {ms : List MatchRecord} {acc : Nat → Finset Nat} {p q : Nat} :
    q ∈ ms.foldl h2hStep acc p ↔
      q ∈ acc p ∨
      (∃ m ∈ ms, ∃ w l, m.winner_id = some w ∧ m.loser_id = some l ∧
        ((p = w ∧ q = l) ∨ (p = l ∧ q = w))) := by
  induction ms generalizing acc with
  | nil => simp
  | cons m ms ih =>
    rw [List.foldl_cons, ih, mem_h2hStep]
    constructor
    · rintro ((hstep | hacc) | ⟨m', hm', hrest⟩)
      · exact Or.inr ⟨m, List.mem_cons_self m ms, hstep⟩
      · exact Or.inl hacc
      · exact Or.inr ⟨m', List.mem_cons_of_mem m hm', hrest⟩
    · rintro (hacc | ⟨m', hm', hrest⟩)
      · exact Or.inl (Or.inr hacc)
      · rcases List.mem_cons.mp hm' with rfl | hm''
        · exact Or.inl (Or.inl hrest)
        · exact Or.inr ⟨m', hm'', hrest⟩

/-- Membership in the head-to-head adjacency: exactly the endpoints of
some usable match, both directions. -/
theorem mem_h2h_connections {ms : List MatchRecord} {p q : Nat} :
    q ∈ h2h_connections ms p ↔
      ∃ m ∈ ms, ∃ w l, m.winner_id = some w ∧ m.loser_id = some l ∧
        ((p = w ∧ q = l) ∨ (p = l ∧ q = w)) := by
  unfold h2h_connections
  rw [mem_h2h_foldl]
  simp

theorem mem_keyStep {acc : Finset Nat} {m : MatchRecord} {p : Nat} :
    p ∈ keyStep acc m ↔
      (∃ w l, m.winner_id = some w ∧ m.loser_id = some l ∧ (p = w ∨ p = l)) ∨
      p ∈ acc := by
  obtain ⟨wi, li, tn, yr, sf, rd, sc⟩ := m
  rcases wi with _ | w <;> rcases li with _ | l <;>
    simp [keyStep] <;> tauto

theorem mem_h2h_keys_foldl {ms : List MatchRecord} {acc : Finset Nat} {p : Nat} :
    p ∈ ms.foldl keyStep acc ↔
      p ∈ acc ∨ (∃ m ∈ ms, ∃ w l, m.winner_id = some w ∧ m.loser_id = some l ∧
        (p = w ∨ p = l)) := by
  induction ms generalizing acc with
  | nil => simp
  | cons m ms ih =>
    rw [List.foldl_cons, ih, mem_keyStep]
    constructor
    · rintro ((hstep | hacc) | ⟨m', hm', hrest⟩)
      · exact Or.inr ⟨m, List.mem_cons_self m ms, hstep⟩
      · exact Or.inl hacc
      · exact Or.inr ⟨m', List.mem_cons_of_mem m hm', hrest⟩
    · rintro (hacc | ⟨m', hm', hrest⟩)
      · exact Or.inl (Or.inr hacc)
      · rcases List.mem_cons.mp hm' with rfl | hm''
        · exact Or.inl (Or.inl hrest)
        · exact Or.inr ⟨m', hm'', hrest⟩

/-- Membership in the key set of `h2h_connections`. -/
theorem mem_h2h_keys {ms : List MatchRecord} {p : Nat} :
    p ∈ h2h_keys ms ↔
      ∃ m ∈ ms, ∃ w l, m.winner_id = some w ∧ m.loser_id = some l ∧
        (p = w ∨ p = l) := by
  unfold h2h_keys
  rw [mem_h2h_keys_foldl]
  simp

/-- A player is a key of `h2h_connections` iff its opponent set is
nonempty (every touched entry receives at least one opponent). -/
theorem h2h_keys_iff_nonempty {ms : List MatchRecord} {p : Nat} :
    p ∈ h2h_keys ms ↔ (h2h_connections ms p).Nonempty := by
  rw [mem_h2h_keys]
  constructor
  · rintro ⟨m, hm, w, l, hw, hl, hp | hp⟩
    · exact ⟨l, mem_h2h_connections.mpr ⟨m, hm, w, l, hw, hl, Or.inl ⟨hp, rfl⟩⟩⟩
    · exact ⟨w, mem_h2h_connections.mpr ⟨m, hm, w, l, hw, hl, Or.inr ⟨hp, rfl⟩⟩⟩
  · rintro ⟨q, hq⟩
    rcases mem_h2h_connections.mp hq with ⟨m, hm, w, l, hw, hl, ⟨hp, _⟩ | ⟨hp, _⟩⟩
    · exact ⟨m, hm, w, l, hw, hl, Or.inl hp⟩
    · exact ⟨m, hm, w, l, hw, hl, Or.inr hp⟩

/-! ## Attribute-Group Extractor (`extract_attribute_connections`) -/

/-- Lines 170-173: players kept for attribute grouping are exactly the
entries with a `name` field. -/
def valid_players (ps : List (Nat × PlayerData)) : List (Nat × PlayerData) :=
  ps.filter (fun x => x.2.name.isSome)

/-- `data.get('country')` under python truthiness: absent or `''` drops
the player from the country grouping (line 184). -/
def countryKey (d : PlayerData) : Option String :=
  match d.country with
  | some c => if c = "" then none else some c
  | none => none

/-- `data.get('hand')` under python truthiness (line 186). -/
def handKey (d : PlayerData) : Option String :=
  match d.hand with
  | some h => if h = "" then none else some h
  | none => none

/-- `int(data['height'] // 5) * 5`: heights grouped into 5-unit buckets
(lines 188-191); a missing or zero (falsy) height drops the player. -/
def heightKey (d : PlayerData) : Option Nat :=
  match d.height with
  | some h => if h = 0 then none else some (h / 5 * 5)
  | none => none

/-- `data.get('birth_year')` under python truthiness (line 192). -/
def birthYearKey (d : PlayerData) : Option Nat :=
  match d.birth_year with
  | some y => if y = 0 then none else some y
  | none => none

section Grouping

variable {β : Type} [DecidableEq β]

/-- `groups[k].append v` on an insertion-ordered `defaultdict(list)`. -/
def insertGrouped (k : β) (v : Nat) : List (β × List Nat) → List (β × List Nat)
  | [] => [(k, [v])]
  | g :: gs => if g.1 = k then (g.1, g.2 ++ [v]) :: gs else g :: insertGrouped k v gs

/-- One player processed by the grouping loop of lines 183-193. -/
def groupStep (key : PlayerData → Option β) (gs : List (β × List Nat))
    (x : Nat × PlayerData) : List (β × List Nat) :=
  match key x.2 with
  | some k => insertGrouped k x.1 gs
  | none => gs

/-- One of the four grouping dicts (`country_groups`, `hand_groups`,
`height_groups`, `year_groups`), as an insertion-ordered association
list over the valid players. -/
def attr_groups (key : PlayerData → Option β) (ps : List (Nat × PlayerData)) :
    List (β × List Nat) :=
  (valid_players ps).foldl (groupStep key) []

/-- The member list of a group (the dict access `groups[k]`, `[]` when
the key is absent). -/
def lookupGroup (gs : List (β × List Nat)) (k : β) : List Nat :=
  match gs.find? (fun g => decide (g.1 = k)) with
  | some g => g.2
  | none => []

/-- The loop of lines 198-202 over one group `full`:
`for player in players: others = [p for p in players if p != player];
attribute_connections[player][kind] = others`. The first list argument
is the remaining iteration suffix. -/
def assignLoop (full : List Nat) : List Nat → (Nat → List Nat) → (Nat → List Nat)
  | [], acc => acc
  | p :: rest, acc =>
      assignLoop full rest
        (fun q => if q = p then full.filter (fun r => decide (r ≠ p)) else acc q)

/-- Assignment of `others` lists for every member of one group. -/
def assignGroup (ps : List Nat) (acc : Nat → List Nat) : Nat → List Nat :=
  assignLoop ps ps acc

/-- One group processed by lines 198-202: only groups with more than one
member assign neighbor lists. -/
def connStep (acc : Nat → List Nat) (g : β × List Nat) : Nat → List Nat :=
  if 1 < g.2.length then assignGroup g.2 acc else acc

/-- The per-kind slice of `attribute_connections` derived from one
grouping dict (default `[]`, as `defaultdict` + `.get(kind, [])`). -/
def grouped_conn (gs : List (β × List Nat)) : Nat → List Nat :=
  gs.foldl connStep (fun _ => [])

theorem assignLoop_apply (full : List Nat) :
    ∀ (l : List Nat) (acc : Nat → List Nat) (q : Nat),
      assignLoop full l acc q =
        if q ∈ l then full.filter (fun r => decide (r ≠ q)) else acc q := by
  intro l
  induction l with
  | nil => intro acc q; simp [assignLoop]
  | cons p rest ih =>
    intro acc q
    rw [assignLoop, ih]
    by_cases hq : q ∈ rest
    · simp [hq]
    · by_cases hqp : q = p
      · subst hqp
        simp [hq]
      · simp [hq, hqp]

theorem assignGroup_apply (ps : List Nat) (acc : Nat → List Nat) (q : Nat) :
    assignGroup ps acc q =
      if q ∈ ps then ps.filter (fun r => decide (r ≠ q)) else acc q :=
  assignLoop_apply ps ps acc q

theorem connStep_apply (acc : Nat → List Nat) (g : β × List Nat) (p : Nat) :
    connStep acc g p =
      if 1 < g.2.length ∧ p ∈ g.2 then g.2.filter (fun r => decide (r ≠ p))
      else acc p := by
  unfold connStep
  by_cases hlen : 1 < g.2.length
  · rw [if_pos hlen, assignGroup_apply]
    by_cases hp : p ∈ g.2
    · simp [hp, hlen]
    · simp [hp, hlen]
  · simp [hlen]

theorem foldl_connStep_skip {p : Nat} :
    ∀ (gs : List (β × List Nat)) (acc : Nat → List Nat),
      (∀ g ∈ gs, ¬(1 < g.2.length ∧ p ∈ g.2)) →
      gs.foldl connStep acc p = acc p := by
  intro gs
  induction gs with
  | nil => intro acc _; rfl
  | cons g gs ih =>
    intro acc hskip
    rw [List.foldl_cons, ih _ (fun g' hg' => hskip g' (List.mem_cons_of_mem g hg')),
      connStep_apply, if_neg (hskip g (List.mem_cons_self g gs))]

theorem foldl_connStep_self_free {p : Nat} :
    ∀ (gs : List (β × List Nat)) (acc : Nat → List Nat),
      p ∉ acc p → p ∉ gs.foldl connStep acc p := by
  intro gs
  induction gs with
  | nil => intro acc h; exact h
  | cons g gs ih =>
    intro acc h
    refine ih _ ?_
    rw [connStep_apply]
    by_cases hc : 1 < g.2.length ∧ p ∈ g.2
    · rw [if_pos hc]
      simp
    · rwa [if_neg hc]

/-- No player ever appears in its own `others` list (the `p != player`
comprehension filter). -/
theorem grouped_conn_self_free (gs : List (β × List Nat)) (p : Nat) :
    p ∉ grouped_conn gs p :=
  foldl_connStep_self_free gs _ (by simp)

theorem mem_foldl_connStep {p q : Nat} :
    ∀ (gs : List (β × List Nat)) (acc : Nat → List Nat),
      q ∈ gs.foldl connStep acc p →
      q ∈ acc p ∨ ∃ g ∈ gs, 1 < g.2.length ∧ p ∈ g.2 ∧ q ∈ g.2 ∧ q ≠ p := by
  intro gs
  induction gs with
  | nil => intro acc h; exact Or.inl h
  | cons g gs ih =>
    intro acc h
    rcases ih _ h with hstep | ⟨g', hg', hrest⟩
    · rw [connStep_apply] at hstep
      by_cases hc : 1 < g.2.length ∧ p ∈ g.2
      · rw [if_pos hc] at hstep
        simp only [List.mem_filter, decide_eq_true_eq] at hstep
        exact Or.inr ⟨g, List.mem_cons_self g gs, hc.1, hc.2, hstep.1, hstep.2⟩
      · rw [if_neg hc] at hstep
        exact Or.inl hstep
    · exact Or.inr ⟨g', List.mem_cons_of_mem g hg', hrest⟩

theorem foldl_connStep_of_uniq {p : Nat} :
    ∀ (gs : List (β × List Nat)) (acc : Nat → List Nat) (g : β × List Nat),
      (gs.map Prod.fst).Nodup →
      (∀ g' ∈ gs, p ∈ g'.2 → g' = g) →
      g ∈ gs → 1 < g.2.length → p ∈ g.2 →
      gs.foldl connStep acc p = g.2.filter (fun r => decide (r ≠ p)) := by
  intro gs
  induction gs with
  | nil => intro acc g _ _ hg _ _; cases hg
  | cons g₀ gs ih =>
    intro acc g hnd huniq hg hlen hp
    rcases List.mem_cons.mp hg with rfl | hgs
    · have hrest : ∀ g' ∈ gs, ¬(1 < g'.2.length ∧ p ∈ g'.2) := by
        intro g' hg' hc
        have := huniq g' (List.mem_cons_of_mem _ hg') hc.2
        subst this
        have : g'.1 ∈ gs.map Prod.fst := List.mem_map_of_mem Prod.fst hg'
        simp only [List.map_cons, List.nodup_cons] at hnd
        exact hnd.1 this
      rw [List.foldl_cons, foldl_connStep_skip gs _ hrest, connStep_apply,
        if_pos ⟨hlen, hp⟩]
    · have hg₀ : ¬(1 < g₀.2.length ∧ p ∈ g₀.2) := by
        rintro ⟨_, hpg₀⟩
        have := huniq g₀ (List.mem_cons_self g₀ gs) hpg₀
        subst this
        have : g₀.1 ∈ gs.map Prod.fst := List.mem_map_of_mem Prod.fst hgs
        simp only [List.map_cons, List.nodup_cons] at hnd
        exact hnd.1 this
      rw [List.foldl_cons]
      refine ih _ g ?_ ?_ hgs hlen hp
      · simp only [List.map_cons, List.nodup_cons] at hnd
        exact hnd.2
      · intro g' hg' hp'
        exact huniq g' (List.mem_cons_of_mem _ hg') hp'

theorem lookupGroup_insert_self (gs : List (β × List Nat)) (k : β) (v : Nat) :
    lookupGroup (insertGrouped k v gs) k = lookupGroup gs k ++ [v] := by
  induction gs with
  | nil => simp [insertGrouped, lookupGroup, List.find?]
  | cons g gs ih =>
    by_cases hk : g.1 = k
    · simp [insertGrouped, hk, lookupGroup, List.find?]
    · simp only [insertGrouped, if_neg hk, lookupGroup, List.find?,
        decide_eq_false hk]
      exact ih

theorem lookupGroup_insert_ne (gs : List (β × List Nat)) {k k' : β} (v : Nat)
    (hne : k' ≠ k) :
    lookupGroup (insertGrouped k v gs) k' = lookupGroup gs k' := by
  induction gs with
  | nil => simp [insertGrouped, lookupGroup, List.find?, Ne.symm hne]
  | cons g gs ih =>
    by_cases hk : g.1 = k
    · have hk' : g.1 ≠ k' := by rw [hk]; exact Ne.symm hne
      simp only [insertGrouped, if_pos hk, lookupGroup, List.find?,
        decide_eq_false hk', decide_eq_false (hk ▸ hk' : k ≠ k')]
    · by_cases hgk' : g.1 = k'
      · simp only [insertGrouped, if_neg hk, lookupGroup, List.find?,
          decide_eq_true hgk']
      · simp only [insertGrouped, if_neg hk, lookupGroup, List.find?,
          decide_eq_false hgk']
        exact ih

theorem lookupGroup_foldl (key : PlayerData → Option β) (k : β) :
    ∀ (l : List (Nat × PlayerData)) (gs : List (β × List Nat)),
      lookupGroup (l.foldl (groupStep key) gs) k =
        lookupGroup gs k ++
          (l.filter (fun x => decide (key x.2 = some k))).map Prod.fst := by
  intro l
  induction l with
  | nil => intro gs; simp
  | cons x l ih =>
    intro gs
    rw [List.foldl_cons, ih]
    unfold groupStep
    rcases hx : key x.2 with _ | k'
    · simp [hx]
    · by_cases hk : k' = k
      · subst hk
        rw [lookupGroup_insert_self]
        simp [hx, List.filter_cons]
      · rw [lookupGroup_insert_ne _ _ (Ne.symm hk)]
        have : ¬(key x.2 = some k) := by simp [hx, hk]
        simp [List.filter_cons, this]

/-- The member list of group `k` is exactly the valid players whose key
is `k`, in input iteration order. -/
theorem lookupGroup_attr_groups (key : PlayerData → Option β)
    (ps : List (Nat × PlayerData)) (k : β) :
    lookupGroup (attr_groups key ps) k =
      ((valid_players ps).filter (fun x => decide (key x.2 = some k))).map
        Prod.fst := by
  unfold attr_groups
  rw [lookupGroup_foldl]
  simp [lookupGroup, List.find?]

theorem mem_attr_group {key : PlayerData → Option β}
    {ps : List (Nat × PlayerData)} {k : β} {p : Nat} :
    p ∈ lookupGroup (attr_groups key ps) k ↔
      ∃ d, (p, d) ∈ valid_players ps ∧ key d = some k := by
  rw [lookupGroup_attr_groups]
  constructor
  · intro hp
    rcases List.mem_map.mp hp with ⟨x, hx, hfst⟩
    rcases List.mem_filter.mp hx with ⟨hmem, hkey⟩
    refine ⟨x.2, ?_, by simpa using hkey⟩
    obtain ⟨a, b⟩ := x
    cases hfst
    exact hmem
  · rintro ⟨d, hmem, hkey⟩
    exact List.mem_map.mpr ⟨(p, d), List.mem_filter.mpr ⟨hmem, by simpa using hkey⟩, rfl⟩

theorem insertGrouped_keys (gs : List (β × List Nat)) (k : β) (v : Nat) :
    (insertGrouped k v gs).map Prod.fst =
      if k ∈ gs.map Prod.fst then gs.map Prod.fst else gs.map Prod.fst ++ [k] := by
  induction gs with
  | nil => simp [insertGrouped]
  | cons g gs ih =>
    by_cases hk : g.1 = k
    · simp [insertGrouped, hk]
    · simp only [insertGrouped, if_neg hk, List.map_cons, ih, List.mem_cons]
      by_cases hmem : k ∈ gs.map Prod.fst
      · simp [hmem, Ne.symm hk]
      · simp [hmem, Ne.symm hk]

theorem attr_groups_keys_nodup (key : PlayerData → Option β)
    (ps : List (Nat × PlayerData)) :
    ((attr_groups key ps).map Prod.fst).Nodup := by
  unfold attr_groups
  generalize valid_players ps = l
  have base : (([] : List (β × List Nat)).map Prod.fst).Nodup := by simp
  revert base
  generalize ([] : List (β × List Nat)) = gs
  induction l generalizing gs with
  | nil => intro h; exact h
  | cons x l ih =>
    intro h
    rw [List.foldl_cons]
    refine ih _ ?_
    unfold groupStep
    rcases hx : key x.2 with _ | k
    · exact h
    · rw [insertGrouped_keys]
      by_cases hmem : k ∈ gs.map Prod.fst
      · rwa [if_pos hmem]
      · rw [if_neg hmem]
        simp [List.nodup_append, h, hmem]

/-- Distinct entries of an association list with `Nodup` keys sharing a
key are equal. -/
theorem assoc_entry_eq_of_key {γ : Type} {gs : List (β × γ)}
    (hnd : (gs.map Prod.fst).Nodup) {g g' : β × γ}
    (hg : g ∈ gs) (hg' : g' ∈ gs) (hk : g.1 = g'.1) : g = g' := by
  induction gs with
  | nil => cases hg
  | cons g₀ gs ih =>
    simp only [List.map_cons, List.nodup_cons] at hnd
    rcases List.mem_cons.mp hg with rfl | hgs
    · rcases List.mem_cons.mp hg' with rfl | hgs'
      · rfl
      · exact absurd (hk ▸ List.mem_map_of_mem Prod.fst hgs') hnd.1
    · rcases List.mem_cons.mp hg' with rfl | hgs'
      · exact absurd (hk ▸ List.mem_map_of_mem Prod.fst hgs) hnd.1
      · exact ih hnd.2 hgs hgs'

theorem lookupGroup_of_mem {gs : List (β × List Nat)}
    (hnd : (gs.map Prod.fst).Nodup) {g : β × List Nat} (hg : g ∈ gs) :
    lookupGroup gs g.1 = g.2 := by
  induction gs with
  | nil => cases hg
  | cons g₀ gs ih =>
    simp only [List.map_cons, List.nodup_cons] at hnd
    rcases List.mem_cons.mp hg with rfl | hgs
    · simp [lookupGroup, List.find?]
    · have hne : g₀.1 ≠ g.1 := by
        intro hkeq
        exact hnd.1 (hkeq ▸ List.mem_map_of_mem Prod.fst hgs)
      simp only [lookupGroup, List.find?, decide_eq_false hne]
      exact ih hnd.2 hgs

/-- Two entries of the same player's data in a `Nodup`-keyed player
list agree (the python `players_data` dict has unique keys). -/
theorem player_data_eq_of_nodup {ps : List (Nat × PlayerData)}
    (hnd : (ps.map Prod.fst).Nodup) {p : Nat} {d d' : PlayerData}
    (h : (p, d) ∈ ps) (h' : (p, d') ∈ ps) : d = d' := by
  have := assoc_entry_eq_of_key hnd h h' rfl
  exact congrArg Prod.snd this

theorem valid_players_keys_nodup {ps : List (Nat × PlayerData)}
    (hnd : (ps.map Prod.fst).Nodup) :
    ((valid_players ps).map Prod.fst).Nodup := by
  have hsub : (valid_players ps).Sublist ps := List.filter_sublist ps
  exact (hsub.map Prod.fst).nodup hnd

/-- Under unique player ids, a player lies in at most one group of each
grouping (its attribute value is unique). -/
theorem attr_group_key_unique {key : PlayerData → Option β}
    {ps : List (Nat × PlayerData)} (hnd : (ps.map Prod.fst).Nodup)
    {p : Nat} {k k' : β}
    (h : p ∈ lookupGroup (attr_groups key ps) k)
    (h' : p ∈ lookupGroup (attr_groups key ps) k') : k = k' := by
  rcases mem_attr_group.mp h with ⟨d, hd, hk⟩
  rcases mem_attr_group.mp h' with ⟨d', hd', hk'⟩
  have hdps : (p, d) ∈ ps := List.mem_of_mem_filter hd
  have hdps' : (p, d') ∈ ps := List.mem_of_mem_filter hd'
  have : d = d' := player_data_eq_of_nodup hnd hdps hdps'
  subst this
  rw [hk] at hk'
  exact Option.some.inj hk'

/-- Under unique player ids, two groups of one grouping sharing a member
coincide. -/
theorem attr_group_entry_unique {key : PlayerData → Option β}
    {ps : List (Nat × PlayerData)} (hnd : (ps.map Prod.fst).Nodup)
    {p : Nat} {g g' : β × List Nat}
    (hg : g ∈ attr_groups key ps) (hg' : g' ∈ attr_groups key ps)
    (hp : p ∈ g.2) (hp' : p ∈ g'.2) : g = g' := by
  have hknd := attr_groups_keys_nodup key ps
  have h1 : p ∈ lookupGroup (attr_groups key ps) g.1 := by
    rw [lookupGroup_of_mem hknd hg]; exact hp
  have h2 : p ∈ lookupGroup (attr_groups key ps) g'.1 := by
    rw [lookupGroup_of_mem hknd hg']; exact hp'
  exact assoc_entry_eq_of_key hknd hg hg' (attr_group_key_unique hnd h1 h2)

/-- Key set of one grouping's slice of the `attribute_connections`
defaultdict: members of groups with more than one member (exactly the
players assigned an `others` list). -/
def attrKeysOf (gs : List (β × List Nat)) : Finset Nat :=
  gs.foldl (fun acc g => if 1 < g.2.length then acc ∪ g.2.toFinset else acc) ∅

theorem mem_attrKeysOf_foldl {p : Nat} :
    ∀ (gs : List (β × List Nat)) (acc : Finset Nat),
      p ∈ gs.foldl (fun acc g => if 1 < g.2.length then acc ∪ g.2.toFinset else acc)
          acc ↔
        p ∈ acc ∨ ∃ g ∈ gs, 1 < g.2.length ∧ p ∈ g.2 := by
  intro gs
  induction gs with
  | nil => intro acc; simp
  | cons g gs ih =>
    intro acc
    rw [List.foldl_cons, ih]
    by_cases hlen : 1 < g.2.length
    · rw [if_pos hlen]
      simp only [Finset.mem_union, List.mem_toFinset, List.mem_cons]
      constructor
      · rintro ((h | h) | ⟨g', hg', h⟩)
        · exact Or.inl h
        · exact Or.inr ⟨g, Or.inl rfl, hlen, h⟩
        · exact Or.inr ⟨g', Or.inr hg', h⟩
      · rintro (h | ⟨g', rfl | hg', h⟩)
        · exact Or.inl (Or.inl h)
        · exact Or.inl (Or.inr h.2)
        · exact Or.inr ⟨g', hg', h⟩
    · rw [if_neg hlen]
      constructor
      · rintro (h | ⟨g', hg', h⟩)
        · exact Or.inl h
        · exact Or.inr ⟨g', List.mem_cons_of_mem g hg', h⟩
      · rintro (h | ⟨g', hg', h⟩)
        · exact Or.inl h
        · rcases List.mem_cons.mp hg' with rfl | hg''
          · exact absurd h.1 hlen
          · exact Or.inr ⟨g', hg'', h⟩

theorem mem_attrKeysOf {gs : List (β × List Nat)} {p : Nat} :
    p ∈ attrKeysOf gs ↔ ∃ g ∈ gs, 1 < g.2.length ∧ p ∈ g.2 := by
  unfold attrKeysOf
  rw [mem_attrKeysOf_foldl]
  simp

end Grouping

/-- The four per-kind slices of `attribute_connections`
(lines 195-220). -/
def same_country_conn (ps : List (Nat × PlayerData)) : Nat → List Nat :=
  grouped_conn (attr_groups countryKey ps)

def same_hand_conn (ps : List (Nat × PlayerData)) : Nat → List Nat :=
  grouped_conn (attr_groups handKey ps)

def similar_height_conn (ps : List (Nat × PlayerData)) : Nat → List Nat :=
  grouped_conn (attr_groups heightKey ps)

def same_birth_year_conn (ps : List (Nat × PlayerData)) : Nat → List Nat :=
  grouped_conn (attr_groups birthYearKey ps)

/-- Key set of `attribute_connections`: a player gets an entry exactly
when some grouping assigns it an `others` list. -/
def attribute_keys (ps : List (Nat × PlayerData)) : Finset Nat :=
  attrKeysOf (attr_groups countryKey ps) ∪ attrKeysOf (attr_groups handKey ps) ∪
    attrKeysOf (attr_groups heightKey ps) ∪ attrKeysOf (attr_groups birthYearKey ps)

/-! ## Tournament-Co-Participation Extractor
(`extract_tournament_connections`) -/

section TournGroups

variable {α γ : Type} [DecidableEq α] [DecidableEq γ]

/-- `groups[k].add v` on an insertion-ordered `defaultdict(set)`. -/
def insertIntoGroup (k : α) (v : γ) :
    List (α × Finset γ) → List (α × Finset γ)
  | [] => [(k, {v})]
  | g :: gs => if g.1 = k then (g.1, insert v g.2) :: gs else g :: insertIntoGroup k v gs

theorem mem_insertIntoGroup {k : α} {v x : γ} {gs : List (α × Finset γ)} :
    (∃ g ∈ insertIntoGroup k v gs, x ∈ g.2) ↔
      x = v ∨ ∃ g ∈ gs, x ∈ g.2 := by
  induction gs with
  | nil => simp [insertIntoGroup]
  | cons g gs ih =>
    by_cases hk : g.1 = k
    · simp [insertIntoGroup, hk]
      tauto
    · simp only [insertIntoGroup, if_neg hk, List.mem_cons]
      constructor
      · rintro ⟨g', rfl | hg', hx⟩
        · exact Or.inr ⟨g', Or.inl rfl, hx⟩
        · rcases ih.mp ⟨g', hg', hx⟩ with h | ⟨g'', hg'', hx''⟩
          · exact Or.inl h
          · exact Or.inr ⟨g'', Or.inr hg'', hx''⟩
      · rintro (rfl | ⟨g', rfl | hg', hx⟩)
        · rcases ih.mpr (Or.inl rfl) with ⟨g', hg', hx⟩
          exact ⟨g', Or.inr hg', hx⟩
        · exact ⟨g', Or.inl rfl, hx⟩
        · rcases ih.mpr (Or.inr ⟨g', hg', hx⟩) with ⟨g'', hg'', hx''⟩
          exact ⟨g'', Or.inr hg'', hx''⟩

end TournGroups

/-- One match row processed by lines 233-241: with a truthy tournament
name and year, each present endpoint id joins the (tournament, year)
group (the two sides are added independently). -/
def tournStep (gs : List ((String × Nat) × Finset Nat)) (m : MatchRecord) :
    List ((String × Nat) × Finset Nat) :=
  if m.tourney_name ≠ "" ∧ m.year ≠ 0 then
    let gs1 := match m.winner_id with
      | some w => insertIntoGroup (m.tourney_name, m.year) w gs
      | none => gs
    match m.loser_id with
    | some l => insertIntoGroup (m.tourney_name, m.year) l gs1
    | none => gs1
  else gs

/-- The `tournament_players` grouping dict (lines 232-241). -/
def tournament_players (ms : List MatchRecord) :
    List ((String × Nat) × Finset Nat) :=
  ms.foldl tournStep []

/-- The `same_tournament` adjacency built by the pairwise loop of lines
244-249: for every (tournament, year) group both directions of every
pair of distinct members are added, so each member's set gains all
other members of the group; the set representation deduplicates across
groups. `gs_finals` is an argument of the source function but (lines
251-269) never contributes: the finalist pairing loop body is `pass`. -/
def same_tournament_conn (ms : List MatchRecord) (gs_finals : List FinalRecord) :
    Nat → Finset Nat :=
  fun p =>
    (tournament_players ms).foldl
      (fun acc g => if p ∈ g.2 then acc ∪ g.2.erase p else acc) ∅

/-- Key set of `tournament_connections`: entries are created exactly for
members of groups with at least two members (the players that occur in
some pair of the loop). -/
def tournament_keys (ms : List MatchRecord) : Finset Nat :=
  (tournament_players ms).foldl
    (fun acc g => if 2 ≤ g.2.card then acc ∪ g.2 else acc) ∅

/-- Lines 252-261: Grand Slam finalist names grouped by tournament.
Dead data: the loop at lines 264-269 that would turn it into
connections has an empty body. -/
def gs_finalists (gs_finals : List FinalRecord) : List (String × Finset String) :=
  gs_finals.foldl
    (fun gs f =>
      if f.tournament ≠ "" then
        if f.winner_name ≠ "" ∧ f.loser_name ≠ "" then
          insertIntoGroup f.tournament f.loser_name
            (insertIntoGroup f.tournament f.winner_name gs)
        else gs
      else gs) []

theorem mem_same_tournament_foldl {p q : Nat} :
    ∀ (gs : List ((String × Nat) × Finset Nat)) (acc : Finset Nat),
      q ∈ gs.foldl (fun acc g => if p ∈ g.2 then acc ∪ g.2.erase p else acc) acc ↔
        q ∈ acc ∨ ∃ g ∈ gs, p ∈ g.2 ∧ q ∈ g.2 ∧ q ≠ p := by
  intro gs
  induction gs with
  | nil => intro acc; simp
  | cons g gs ih =>
    intro acc
    rw [List.foldl_cons, ih]
    by_cases hp : p ∈ g.2
    · rw [if_pos hp]
      simp only [Finset.mem_union, Finset.mem_erase, List.mem_cons]
      constructor
      · rintro ((h | ⟨hq, hmem⟩) | ⟨g', hg', h⟩)
        · exact Or.inl h
        · exact Or.inr ⟨g, Or.inl rfl, hp, hmem, hq⟩
        · exact Or.inr ⟨g', Or.inr hg', h⟩
      · rintro (h | ⟨g', rfl | hg', hp', hq', hne⟩)
        · exact Or.inl (Or.inl h)
        · exact Or.inl (Or.inr ⟨hne, hq'⟩)
        · exact Or.inr ⟨g', hg', hp', hq', hne⟩
    · rw [if_neg hp]
      constructor
      · rintro (h | ⟨g', hg', h⟩)
        · exact Or.inl h
        · exact Or.inr ⟨g', List.mem_cons_of_mem g hg', h⟩
      · rintro (h | ⟨g', hg', h⟩)
        · exact Or.inl h
        · rcases List.mem_cons.mp hg' with rfl | hg''
          · exact absurd h.1 hp
          · exact Or.inr ⟨g', hg'', h⟩

/-- Membership in the `same_tournament` adjacency. -/
theorem mem_same_tournament_conn {ms : List MatchRecord}
    {gsf : List FinalRecord} {p q : Nat} :
    q ∈ same_tournament_conn ms gsf p ↔
      ∃ g ∈ tournament_players ms, p ∈ g.2 ∧ q ∈ g.2 ∧ q ≠ p := by
  unfold same_tournament_conn
  rw [mem_same_tournament_foldl]
  simp

/-! ## Graph Merger (`build_connection_graph`) -/

/-- The per-vertex record of the merged graph (lines 319-333). The two
set-valued relations are serialized through `list(...)`; only their
membership is observable, so they stay `Finset`s here. -/
structure Connections where
  direct_opponents : Finset Nat
  same_country : List Nat
  same_hand : List Nat
  similar_height : List Nat
  same_birth_year : List Nat
  same_tournament : Finset Nat
  total_connections : Nat
deriving DecidableEq

/-- Lines 318-334: the merged record of one vertex. `total_connections`
is the size of the running union `all_connections`, updated with the six
neighbor lists in the insertion order of the `connections` dict. -/
def connection_record (ms : List MatchRecord) (ps : List (Nat × PlayerData))
    (gsf : List FinalRecord) (p : Nat) : Connections :=
  let d := h2h_connections ms p
  let sc := same_country_conn ps p
  let sh := same_hand_conn ps p
  let ht := similar_height_conn ps p
  let yr := same_birth_year_conn ps p
  let st := same_tournament_conn ms gsf p
  { direct_opponents := d
    same_country := sc
    same_hand := sh
    similar_height := ht
    same_birth_year := yr
    same_tournament := st
    total_connections :=
      (d ∪ sc.toFinset ∪ sh.toFinset ∪ ht.toFinset ∪ yr.toFinset ∪ st).card }

/-- Lines 313-316: the vertex set of the merged graph is the union of
the three extractors' key sets. -/
def connection_graph_keys (ms : List MatchRecord)
    (ps : List (Nat × PlayerData)) : Finset Nat :=
  h2h_keys ms ∪ attribute_keys ps ∪ tournament_keys ms

/-! ## Top-Connectivity Selector (`get_popular_players` and `main`) -/

/-- A candidate entry of the `players` output list (lines 289-298). -/
structure PlayerInfo where
  id : Nat
  name : String
  country : String
  hand : String
  height : Option Nat
  birth_year : Option Nat
  titles : Nat
  connections : Nat
deriving DecidableEq, Repr

/-- Lines 289-298: candidate metadata; `connections` is the size of the
player's raw head-to-head opponent set. -/
def toPlayerInfo (ms : List MatchRecord) (x : Nat × PlayerData) : PlayerInfo :=
  { id := x.1
    name := x.2.name.getD ""
    country := x.2.country.getD ""
    hand := x.2.hand.getD ""
    height := x.2.height
    birth_year := x.2.birth_year
    titles := x.2.titles.getD 0
    connections := (h2h_connections ms x.1).card }

section StableSort

variable {α : Type}

/-- Stable insertion into a descending-sorted list: the element goes
immediately before the first position whose key is not larger, hence
before every element of equal key already present. -/
def insertDesc (key : α → Nat) (x : α) : List α → List α
  | [] => [x]
  | y :: ys => if key y ≤ key x then x :: y :: ys else y :: insertDesc key x ys

/-- Model of `popular_players.sort(key=lambda x: x['connections'],
reverse=True)` (line 302): python's sort is the unique stable descending
reordering, realized here as a stable insertion sort. -/
def sortDesc (key : α → Nat) : List α → List α
  | [] => []
  | x :: xs => insertDesc key x (sortDesc key xs)

theorem mem_insertDesc {key : α → Nat} {x z : α} {l : List α} :
    z ∈ insertDesc key x l ↔ z = x ∨ z ∈ l := by
  induction l with
  | nil => simp [insertDesc]
  | cons y ys ih =>
    by_cases h : key y ≤ key x
    · simp [insertDesc, h]
    · simp only [insertDesc, if_neg h, List.mem_cons, ih]
      tauto

theorem insertDesc_perm (key : α → Nat) (x : α) (l : List α) :
    (insertDesc key x l).Perm (x :: l) := by
  induction l with
  | nil => simp [insertDesc]
  | cons y ys ih =>
    by_cases h : key y ≤ key x
    · simp [insertDesc, h]
    · rw [insertDesc, if_neg h]
      exact (ih.cons y).trans (List.Perm.swap x y ys)

theorem sortDesc_perm (key : α → Nat) (l : List α) :
    (sortDesc key l).Perm l := by
  induction l with
  | nil => simp [sortDesc]
  | cons x xs ih =>
    exact (insertDesc_perm key x (sortDesc key xs)).trans (ih.cons x)

theorem insertDesc_pairwise {key : α → Nat} {x : α} {l : List α}
    (h : l.Pairwise (fun a b => key b ≤ key a)) :
    (insertDesc key x l).Pairwise (fun a b => key b ≤ key a) := by
  induction l with
  | nil => simp [insertDesc]
  | cons y ys ih =>
    rcases List.pairwise_cons.mp h with ⟨hy, hys⟩
    by_cases hle : key y ≤ key x
    · rw [insertDesc, if_pos hle]
      refine List.pairwise_cons.mpr ⟨?_, h⟩
      intro z hz
      rcases List.mem_cons.mp hz with rfl | hz'
      · exact hle
      · exact le_trans (hy z hz') hle
    · rw [insertDesc, if_neg hle]
      refine List.pairwise_cons.mpr ⟨?_, ih hys⟩
      intro z hz
      rcases mem_insertDesc.mp hz with rfl | hz'
      · exact le_of_not_le hle
      · exact hy z hz'

/-- The sorted list is nonincreasing in the key. -/
theorem sortDesc_pairwise (key : α → Nat) (l : List α) :
    (sortDesc key l).Pairwise (fun a b => key b ≤ key a) := by
  induction l with
  | nil => simp [sortDesc]
  | cons x xs ih => exact insertDesc_pairwise ih

theorem insertDesc_filter (key : α → Nat) (x : α) (l : List α) (n : Nat) :
    (insertDesc key x l).filter (fun a => decide (key a = n)) =
      if key x = n then x :: l.filter (fun a => decide (key a = n))
      else l.filter (fun a => decide (key a = n)) := by
  induction l with
  | nil =>
    by_cases hx : key x = n <;> simp [insertDesc, List.filter_cons, hx]
  | cons y ys ih =>
    by_cases hle : key y ≤ key x
    · rw [insertDesc, if_pos hle]
      by_cases hx : key x = n <;> by_cases hy : key y = n <;>
        simp [List.filter_cons, hx, hy]
    · rw [insertDesc, if_neg hle]
      simp only [List.filter_cons, ih]
      by_cases hy : key y = n
      · have hx : ¬(key x = n) := fun hx => hle (le_of_eq (hy.trans hx.symm))
        simp [hx, hy]
      · by_cases hx : key x = n <;> simp [hx, hy]

/-- Stability of the sort: the elements of any fixed key keep their
relative input order. -/
theorem sortDesc_filter (key : α → Nat) (l : List α) (n : Nat) :
    (sortDesc key l).filter (fun a => decide (key a = n)) =
      l.filter (fun a => decide (key a = n)) := by
  induction l with
  | nil => simp [sortDesc]
  | cons x xs ih =>
    rw [sortDesc, insertDesc_filter, List.filter_cons]
    by_cases hx : key x = n <;> simp [hx, ih]

theorem mem_sortDesc {key : α → Nat} {l : List α} {x : α} :
    x ∈ sortDesc key l ↔ x ∈ l :=
  (sortDesc_perm key l).mem_iff

end StableSort

/-- Lines 279-305: keep the named players that have a head-to-head entry
with at least `min_connections` distinct opponents, then sort by
opponent count, descending and stable. -/
def get_popular_players (ps : List (Nat × PlayerData)) (ms : List MatchRecord)
    (min_connections : Nat) : List PlayerInfo :=
  sortDesc (fun i => i.connections)
    ((ps.filter (fun x => x.2.name.isSome && decide (x.1 ∈ h2h_keys ms) &&
        decide (min_connections ≤ (h2h_connections ms x.1).card))).map
      (toPlayerInfo ms))

/-- Line 361 and 364: threshold 8, truncation to the top 800. -/
def top_players (ms : List MatchRecord) (ps : List (Nat × PlayerData)) :
    List PlayerInfo :=
  (get_popular_players ps ms 8).take 800

/-- Line 365: `top_player_ids = {player['id'] for player in top_players}`. -/
def top_player_ids (ms : List MatchRecord) (ps : List (Nat × PlayerData)) :
    Finset Nat :=
  (top_players ms ps).foldl (fun s i => insert i.id s) ∅

/-! ## Serializer (`main`, lines 363-408) -/

/-- The output document `tennis_web_data` (lines 384-403), with the maps
keyed by player id. The stringification of the keys and the timestamp
metadata (`generated_on`, `data_range`) are wire-format details carrying
no graph content and are not modeled. -/
structure TennisWebData where
  players : List PlayerInfo
  connections : Nat → Option Connections
  player_details : Nat → Option PlayerData
  match_details : Nat → Option (List MatchDetail)
  total_players : Nat
  total_matches : Nat
  connection_types : List String

/-- Lines 363-403: the document built from nonempty match data. The
three per-vertex maps are restricted to the retained ids; the
`connections` records are copied from the merged graph, and the
match-detail lists are cut to their first 50 entries (line 381). -/
def buildOutput (ms : List MatchRecord) (ps : List (Nat × PlayerData))
    (gsf : List FinalRecord) : TennisWebData :=
  { players := top_players ms ps
    connections := fun p =>
      if p ∈ top_player_ids ms ps ∧ p ∈ connection_graph_keys ms ps then
        some (connection_record ms ps gsf p)
      else none
    player_details := fun p =>
      if p ∈ top_player_ids ms ps then List.lookup p ps else none
    match_details := fun p =>
      if p ∈ top_player_ids ms ps ∧ p ∈ h2h_keys ms then
        some ((match_details ms p).take 50)
      else none
    total_players := (top_players ms ps).length
    total_matches := ms.length
    connection_types :=
      ["direct_opponents", "same_country", "same_hand", "similar_height",
        "same_birth_year", "same_tournament"] }

/-- `main` (lines 339-408): aborts before producing any output exactly
when the loaded match stream is empty (lines 348-350), and otherwise
writes the document. -/
def main_output (ms : List MatchRecord) (ps : List (Nat × PlayerData))
    (gsf : List FinalRecord) : Option TennisWebData :=
  if ms = [] then none else some (buildOutput ms ps gsf)

/-- Accessor helpers for closed statements about the output maps. -/
def emptyConnections : Connections := ⟨∅, [], [], [], [], ∅, 0⟩

def connAt (t : TennisWebData) (p : Nat) : Connections :=
  (t.connections p).getD emptyConnections

def mdAt (t : TennisWebData) (p : Nat) : List MatchDetail :=
  (t.match_details p).getD []

/-! ## Support lemmas for the selector and the merged graph -/

theorem mem_top_ids_foldl {p : Nat} :
    ∀ (l : List PlayerInfo) (acc : Finset Nat),
      p ∈ l.foldl (fun s i => insert i.id s) acc ↔
        p ∈ acc ∨ ∃ i ∈ l, i.id = p := by
  intro l
  induction l with
  | nil => intro acc; simp
  | cons i l ih =>
    intro acc
    rw [List.foldl_cons, ih]
    simp only [Finset.mem_insert, List.mem_cons]
    constructor
    · rintro ((h | h) | ⟨i', hi', h⟩)
      · exact Or.inr ⟨i, Or.inl rfl, h.symm⟩
      · exact Or.inl h
      · exact Or.inr ⟨i', Or.inr hi', h⟩
    · rintro (h | ⟨i', rfl | hi', h⟩)
      · exact Or.inl (Or.inr h)
      · exact Or.inl (Or.inl h.symm)
      · exact Or.inr ⟨i', hi', h⟩

theorem mem_top_player_ids {ms : List MatchRecord}
    {ps : List (Nat × PlayerData)} {p : Nat} :
    p ∈ top_player_ids ms ps ↔ ∃ i ∈ top_players ms ps, i.id = p := by
  unfold top_player_ids
  rw [mem_top_ids_foldl]
  simp

theorem mem_get_popular {ps : List (Nat × PlayerData)} {ms : List MatchRecord}
    {n : Nat} {i : PlayerInfo} :
    i ∈ get_popular_players ps ms n ↔
      ∃ x ∈ ps,
        (x.2.name.isSome ∧ x.1 ∈ h2h_keys ms ∧
          n ≤ (h2h_connections ms x.1).card) ∧
        i = toPlayerInfo ms x := by
  unfold get_popular_players
  rw [mem_sortDesc, List.mem_map]
  constructor
  · rintro ⟨x, hx, rfl⟩
    rcases List.mem_filter.mp hx with ⟨hmem, hcond⟩
    simp only [Bool.and_eq_true, decide_eq_true_eq] at hcond
    exact ⟨x, hmem, ⟨hcond.1.1, hcond.1.2, hcond.2⟩, rfl⟩
  · rintro ⟨x, hmem, hcond, rfl⟩
    refine ⟨x, List.mem_filter.mpr ⟨hmem, ?_⟩, rfl⟩
    simp only [Bool.and_eq_true, decide_eq_true_eq]
    exact ⟨⟨hcond.1, hcond.2.1⟩, hcond.2.2⟩

/-- Candidate metadata is computed from the player's entry: the
`connections` field is the raw head-to-head opponent count. -/
theorem popular_fields {ps : List (Nat × PlayerData)} {ms : List MatchRecord}
    {n : Nat} {i : PlayerInfo} (h : i ∈ get_popular_players ps ms n) :
    i.connections = (h2h_connections ms i.id).card ∧ n ≤ i.connections ∧
      ∃ d, (i.id, d) ∈ ps ∧ d.name = some i.name := by
  rcases mem_get_popular.mp h with ⟨⟨pid, d⟩, hmem, hcond, rfl⟩
  refine ⟨rfl, hcond.2.2, d, hmem, ?_⟩
  rcases hn : d.name with _ | s
  · rw [hn] at hcond
    simp at hcond
  · simp [toPlayerInfo, hn]

theorem mem_top_players {ms : List MatchRecord}
    {ps : List (Nat × PlayerData)} {i : PlayerInfo}
    (h : i ∈ top_players ms ps) : i ∈ get_popular_players ps ms 8 :=
  (List.take_subset 800 _) h

/-! ### Per-kind facts about the grouped attribute connections -/

section GroupingFacts

variable {β : Type} [DecidableEq β]

theorem lookupGroup_self_mem {gs : List (β × List Nat)} {k : β}
    (h : lookupGroup gs k ≠ []) : (k, lookupGroup gs k) ∈ gs := by
  induction gs with
  | nil => simp [lookupGroup, List.find?] at h
  | cons g gs ih =>
    by_cases hk : g.1 = k
    · have hlk : lookupGroup (g :: gs) k = g.2 := by
        simp [lookupGroup, List.find?, decide_eq_true hk]
      rw [hlk]
      have hgk : (k, g.2) = g := by
        obtain ⟨g1, g2⟩ := g
        cases hk
        rfl
      rw [hgk]
      exact List.mem_cons_self g gs
    · have heq : lookupGroup (g :: gs) k = lookupGroup gs k := by
        simp [lookupGroup, List.find?, decide_eq_false hk]
      rw [heq] at h ⊢
      exact List.mem_cons_of_mem g (ih h)

theorem not_mem_group_of_key_none {key : PlayerData → Option β}
    {ps : List (Nat × PlayerData)} (hnd : (ps.map Prod.fst).Nodup)
    {p : Nat} {d : PlayerData} (hd : (p, d) ∈ ps) (hk : key d = none) :
    ∀ g ∈ attr_groups key ps, p ∉ g.2 := by
  intro g hg hp
  have hknd := attr_groups_keys_nodup key ps
  have hlk : p ∈ lookupGroup (attr_groups key ps) g.1 := by
    rw [lookupGroup_of_mem hknd hg]; exact hp
  rcases mem_attr_group.mp hlk with ⟨d', hd', hk'⟩
  have : d' = d :=
    player_data_eq_of_nodup hnd (List.mem_of_mem_filter hd') hd
  rw [this, hk] at hk'
  cases hk'

theorem not_mem_group_of_nameless {key : PlayerData → Option β}
    {ps : List (Nat × PlayerData)} {p : Nat}
    (h : ∀ d, (p, d) ∈ ps → d.name = none) :
    ∀ g ∈ attr_groups key ps, p ∉ g.2 := by
  intro g hg hp
  have hknd := attr_groups_keys_nodup key ps
  have hlk : p ∈ lookupGroup (attr_groups key ps) g.1 := by
    rw [lookupGroup_of_mem hknd hg]; exact hp
  rcases mem_attr_group.mp hlk with ⟨d', hd', _⟩
  rcases List.mem_filter.mp hd' with ⟨hmem, hname⟩
  rw [h d' hmem] at hname
  simp at hname

theorem grouped_conn_eq_nil_of_no_group {gs : List (β × List Nat)} {p : Nat}
    (h : ∀ g ∈ gs, p ∉ g.2) : grouped_conn gs p = [] :=
  foldl_connStep_skip gs _ (fun g hg hc => h g hg hc.2)

theorem grouped_conn_eq_nil_of_small {gs : List (β × List Nat)} {p : Nat}
    (h : ∀ g ∈ gs, p ∈ g.2 → g.2.length ≤ 1) : grouped_conn gs p = [] :=
  foldl_connStep_skip gs _ (fun g hg hc => by
    have := h g hg hc.2
    omega)

/-- A member of a group with at least two members gets exactly the other
members of its (unique) group as its neighbor list. -/
theorem grouped_conn_eq_of_mem_group {key : PlayerData → Option β}
    {ps : List (Nat × PlayerData)} (hnd : (ps.map Prod.fst).Nodup)
    {k : β} {p : Nat} (hp : p ∈ lookupGroup (attr_groups key ps) k)
    (hlen : 1 < (lookupGroup (attr_groups key ps) k).length) :
    grouped_conn (attr_groups key ps) p =
      (lookupGroup (attr_groups key ps) k).filter (fun r => decide (r ≠ p)) := by
  have hne : lookupGroup (attr_groups key ps) k ≠ [] := by
    intro h0
    rw [h0] at hp
    cases hp
  have hgmem : (k, lookupGroup (attr_groups key ps) k) ∈ attr_groups key ps :=
    lookupGroup_self_mem hne
  exact foldl_connStep_of_uniq (attr_groups key ps) _ _
    (attr_groups_keys_nodup key ps)
    (fun g' hg' hp' => attr_group_entry_unique hnd hg' hgmem hp' hp)
    hgmem hlen hp

/-- Symmetry of a grouped attribute relation, given unique player ids. -/
theorem grouped_conn_symm {key : PlayerData → Option β}
    {ps : List (Nat × PlayerData)} (hnd : (ps.map Prod.fst).Nodup)
    {p q : Nat} (h : q ∈ grouped_conn (attr_groups key ps) p) :
    p ∈ grouped_conn (attr_groups key ps) q := by
  rcases mem_foldl_connStep (attr_groups key ps) _ h with h0 | ⟨g, hg, hlen, hp, hq, hqp⟩
  · cases h0
  have huniq : ∀ g' ∈ attr_groups key ps, q ∈ g'.2 → g' = g :=
    fun g' hg' hq' => attr_group_entry_unique hnd hg' hg hq' hq
  unfold grouped_conn
  rw [foldl_connStep_of_uniq (attr_groups key ps) _ g
    (attr_groups_keys_nodup key ps) huniq hg hlen hq]
  rw [List.mem_filter]
  exact ⟨hp, by simp [Ne.symm hqp]⟩

theorem two_mem_length_gt_one {l : List Nat} {p q : Nat}
    (hp : p ∈ l) (hq : q ∈ l) (hne : p ≠ q) : 1 < l.length := by
  cases l with
  | nil => cases hp
  | cons a l =>
    cases l with
    | nil =>
      rcases List.mem_singleton.mp hp with rfl
      rcases List.mem_singleton.mp hq with rfl
      exact absurd rfl hne
    | cons b l => simp [Nat.succ_lt_succ]

end GroupingFacts

/-- The two eligibility conditions of `get_popular_players` coincide at
threshold 8: a head-to-head entry exists whenever its size is ≥ 8. -/
theorem eligible_filter_eq (ms : List MatchRecord) (ps : List (Nat × PlayerData)) :
    ps.filter (fun x => x.2.name.isSome && decide (x.1 ∈ h2h_keys ms) &&
        decide (8 ≤ (h2h_connections ms x.1).card)) =
      ps.filter (fun x => x.2.name.isSome &&
        decide (8 ≤ (h2h_connections ms x.1).card)) := by
  apply List.filter_congr
  intro x hx
  by_cases hc : 8 ≤ (h2h_connections ms x.1).card
  · have hpos : 0 < (h2h_connections ms x.1).card := lt_of_lt_of_le (by norm_num) hc
    have hk : x.1 ∈ h2h_keys ms :=
      h2h_keys_iff_nonempty.mpr (Finset.card_pos.mp hpos)
    simp [hc, hk]
  · simp [hc]

/-! ## The claims -/

/-- C2: for every vertex of the merged graph, `total_connections` equals
the cardinality of the union of the six relation-kind neighbor sets of
that vertex — so a pair connected under two different relation kinds is
counted once, not twice (it is not the sum of the list lengths). -/
theorem C2_total_connections_is_union_card (ms : List MatchRecord)
    (ps : List (Nat × PlayerData)) (gsf : List FinalRecord) (p : Nat) :
    (connection_record ms ps gsf p).total_connections =
      ((connection_record ms ps gsf p).direct_opponents ∪
        ((connection_record ms ps gsf p).same_country.toFinset ∪
          ((connection_record ms ps gsf p).same_hand.toFinset ∪
            ((connection_record ms ps gsf p).similar_height.toFinset ∪
              ((connection_record ms ps gsf p).same_birth_year.toFinset ∪
                (connection_record ms ps gsf p).same_tournament))))).card ∧
    ∀ q : Nat,
      (q ∈ (connection_record ms ps gsf p).direct_opponents ∪
          ((connection_record ms ps gsf p).same_country.toFinset ∪
            ((connection_record ms ps gsf p).same_hand.toFinset ∪
              ((connection_record ms ps gsf p).similar_height.toFinset ∪
                ((connection_record ms ps gsf p).same_birth_year.toFinset ∪
                  (connection_record ms ps gsf p).same_tournament)))) ↔
        (q ∈ (connection_record ms ps gsf p).direct_opponents ∨
          q ∈ (connection_record ms ps gsf p).same_country ∨
          q ∈ (connection_record ms ps gsf p).same_hand ∨
          q ∈ (connection_record ms ps gsf p).similar_height ∨
          q ∈ (connection_record ms ps gsf p).same_birth_year ∨
          q ∈ (connection_record ms ps gsf p).same_tournament)) := by
  constructor
  · simp [connection_record, Finset.union_assoc]
  · intro q
    simp [Finset.mem_union, List.mem_toFinset]

/-- C8: the Grand Slam final-record stream has no effect on any produced
output: the finalist grouping is computed (lines 252-261) but the loop
that would connect finalists has an empty body (lines 264-269), so both
the merged graph and the whole serialized document are identical under
any two final-record streams. -/
theorem C8_finals_have_no_effect (ms : List MatchRecord)
    (ps : List (Nat × PlayerData)) (gs1 gs2 : List FinalRecord) :
    main_output ms ps gs1 = main_output ms ps gs2 ∧
    (∀ p, connection_record ms ps gs1 p = connection_record ms ps gs2 p) ∧
    (∀ p, same_tournament_conn ms gs1 p = same_tournament_conn ms gs2 p) :=
  ⟨rfl, fun _ => rfl, fun _ => rfl⟩

/-- C5: the candidate list of the main pipeline is exactly the named
players with at least 8 distinct direct opponents, sorted by
direct-opponent count (the `connections` field — not
`total_connections`) in descending order, ties kept in input iteration
order (stable sort), and truncated to 800 entries. -/
theorem C5_candidate_list (ms : List MatchRecord) (ps : List (Nat × PlayerData))
    (gsf : List FinalRecord) :
    (buildOutput ms ps gsf).players = (get_popular_players ps ms 8).take 800 ∧
    (buildOutput ms ps gsf).players.length ≤ 800 ∧
    (get_popular_players ps ms 8).Pairwise
      (fun a b => b.connections ≤ a.connections) ∧
    (∀ n, (get_popular_players ps ms 8).filter
        (fun i => decide (i.connections = n)) =
      ((ps.filter (fun x => x.2.name.isSome &&
          decide (8 ≤ (h2h_connections ms x.1).card))).map
        (toPlayerInfo ms)).filter (fun i => decide (i.connections = n))) ∧
    (∀ i, i ∈ get_popular_players ps ms 8 ↔
      i ∈ (ps.filter (fun x => x.2.name.isSome &&
          decide (8 ≤ (h2h_connections ms x.1).card))).map (toPlayerInfo ms)) ∧
    (∀ i ∈ get_popular_players ps ms 8,
      i.connections = (h2h_connections ms i.id).card ∧ 8 ≤ i.connections) := by
  refine ⟨rfl, ?_, sortDesc_pairwise _ _, ?_, ?_, ?_⟩
  · simp [buildOutput, top_players]
  · intro n
    rw [get_popular_players, sortDesc_filter, eligible_filter_eq]
  · intro i
    rw [get_popular_players, mem_sortDesc, eligible_filter_eq]
  · intro i hi
    exact ⟨(popular_fields hi).1, (popular_fields hi).2.1⟩

/-- C6: every relation edge of the merged (pre-truncation) graph is
symmetric: for distinct players p and q and each of the six relation
kinds, q is in p's neighbor list exactly when p is in q's. Unique
player ids (the python dict keys) are assumed. -/
theorem C6_relation_edges_symmetric (ms : List MatchRecord)
    (ps : List (Nat × PlayerData)) (gsf : List FinalRecord)
    (hnd : (ps.map Prod.fst).Nodup) (p q : Nat) (hpq : p ≠ q) :
    (q ∈ (connection_record ms ps gsf p).direct_opponents ↔
      p ∈ (connection_record ms ps gsf q).direct_opponents) ∧
    (q ∈ (connection_record ms ps gsf p).same_country ↔
      p ∈ (connection_record ms ps gsf q).same_country) ∧
    (q ∈ (connection_record ms ps gsf p).same_hand ↔
      p ∈ (connection_record ms ps gsf q).same_hand) ∧
    (q ∈ (connection_record ms ps gsf p).similar_height ↔
      p ∈ (connection_record ms ps gsf q).similar_height) ∧
    (q ∈ (connection_record ms ps gsf p).same_birth_year ↔
      p ∈ (connection_record ms ps gsf q).same_birth_year) ∧
    (q ∈ (connection_record ms ps gsf p).same_tournament ↔
      p ∈ (connection_record ms ps gsf q).same_tournament) := by
  have hd : ∀ a b : Nat, b ∈ h2h_connections ms a → a ∈ h2h_connections ms b := by
    intro a b h
    rcases mem_h2h_connections.mp h with ⟨m, hm, w, l, hw, hl, hc⟩
    exact mem_h2h_connections.mpr ⟨m, hm, w, l, hw, hl, by tauto⟩
  have ht : ∀ a b : Nat, b ∈ same_tournament_conn ms gsf a → a ≠ b →
      a ∈ same_tournament_conn ms gsf b := by
    intro a b h hab
    rcases mem_same_tournament_conn.mp h with ⟨g, hg, ha, hb, _⟩
    exact mem_same_tournament_conn.mpr ⟨g, hg, hb, ha, hab⟩
  simp only [connection_record]
  exact ⟨⟨hd p q, hd q p⟩,
    ⟨grouped_conn_symm hnd, grouped_conn_symm hnd⟩,
    ⟨grouped_conn_symm hnd, grouped_conn_symm hnd⟩,
    ⟨grouped_conn_symm hnd, grouped_conn_symm hnd⟩,
    ⟨grouped_conn_symm hnd, grouped_conn_symm hnd⟩,
    ⟨fun h => ht p q h hpq, fun h => ht q p h (Ne.symm hpq)⟩⟩

/-- Concrete input for the C6 witness: two named French right-handers of
the same height bucket and birth year. -/
def c6ps : List (Nat × PlayerData) :=
  [(1, ⟨some "Ana", some "FRA", some "R", some 180, some 1990, some 2⟩),
   (2, ⟨some "Bea", some "FRA", some "R", some 181, some 1990, none⟩)]

/-- Witness for C6 at a concrete input: the hypotheses hold and the six
equivalences are produced by the theorem. -/
theorem C6_relation_edges_symmetric_witness :
    (c6ps.map Prod.fst).Nodup ∧ (1 : Nat) ≠ 2 ∧
    ((2 ∈ (connection_record [] c6ps [] 1).direct_opponents ↔
        1 ∈ (connection_record [] c6ps [] 2).direct_opponents) ∧
      (2 ∈ (connection_record [] c6ps [] 1).same_country ↔
        1 ∈ (connection_record [] c6ps [] 2).same_country) ∧
      (2 ∈ (connection_record [] c6ps [] 1).same_hand ↔
        1 ∈ (connection_record [] c6ps [] 2).same_hand) ∧
      (2 ∈ (connection_record [] c6ps [] 1).similar_height ↔
        1 ∈ (connection_record [] c6ps [] 2).similar_height) ∧
      (2 ∈ (connection_record [] c6ps [] 1).same_birth_year ↔
        1 ∈ (connection_record [] c6ps [] 2).same_birth_year) ∧
      (2 ∈ (connection_record [] c6ps [] 1).same_tournament ↔
        1 ∈ (connection_record [] c6ps [] 2).same_tournament)) :=
  ⟨by decide, by decide,
    C6_relation_edges_symmetric [] c6ps [] (by decide) 1 2 (by decide)⟩

/-- Concrete input for the C7 counterexample: a match record whose
winner id equals its loser id. -/
def c7ms : List MatchRecord := [⟨some 1, some 1, "", 0, "", "", ""⟩]

/-- Counterexample to C7 as stated: on a match record with equal winner
and loser ids, the head-to-head extractor adds a self-loop, so vertex 1
of the merged graph lists itself among its direct opponents. -/
theorem C7_no_self_loops_counterexample :
    (1 : Nat) ∈ connection_graph_keys c7ms [] ∧
    (1 : Nat) ∈ (connection_record c7ms [] [] 1).direct_opponents := by
  decide

/-- C7 (amended): provided every usable match record has distinct winner
and loser ids, no vertex appears in its own neighbor list under any of
the six relation kinds. (The attribute and tournament extractors never
produce self-loops; only a degenerate match record can.) -/
theorem C7_no_self_loops (ms : List MatchRecord) (ps : List (Nat × PlayerData))
    (gsf : List FinalRecord)
    (hws : ∀ m ∈ ms, usable m = true → m.winner_id ≠ m.loser_id) (p : Nat) :
    p ∉ (connection_record ms ps gsf p).direct_opponents ∧
    p ∉ (connection_record ms ps gsf p).same_country ∧
    p ∉ (connection_record ms ps gsf p).same_hand ∧
    p ∉ (connection_record ms ps gsf p).similar_height ∧
    p ∉ (connection_record ms ps gsf p).same_birth_year ∧
    p ∉ (connection_record ms ps gsf p).same_tournament := by
  simp only [connection_record]
  refine ⟨?_, grouped_conn_self_free _ p, grouped_conn_self_free _ p,
    grouped_conn_self_free _ p, grouped_conn_self_free _ p, ?_⟩
  · intro h
    rcases mem_h2h_connections.mp h with ⟨m, hm, w, l, hw, hl, hc⟩
    have husable : usable m = true := by
      simp [usable, hw, hl]
    have hwl : w = l := by
      rcases hc with ⟨h1, h2⟩ | ⟨h1, h2⟩ <;> omega
    exact hws m hm husable (by rw [hw, hl, hwl])
  · intro h
    rcases mem_same_tournament_conn.mp h with ⟨_, _, _, _, hne⟩
    exact hne rfl

/-- Concrete input for the C7 witness: one proper match. -/
def c7wms : List MatchRecord := [⟨some 1, some 2, "", 0, "", "", ""⟩]

/-- Witness for C7 (amended) at a concrete input. -/
theorem C7_no_self_loops_witness :
    (∀ m ∈ c7wms, usable m = true → m.winner_id ≠ m.loser_id) ∧
    ((1 : Nat) ∉ (connection_record c7wms [] [] 1).direct_opponents ∧
      (1 : Nat) ∉ (connection_record c7wms [] [] 1).same_country ∧
      (1 : Nat) ∉ (connection_record c7wms [] [] 1).same_hand ∧
      (1 : Nat) ∉ (connection_record c7wms [] [] 1).similar_height ∧
      (1 : Nat) ∉ (connection_record c7wms [] [] 1).same_birth_year ∧
      (1 : Nat) ∉ (connection_record c7wms [] [] 1).same_tournament) :=
  ⟨by decide, C7_no_self_loops c7wms [] [] (by decide) 1⟩

/-- The four properties claimed of each attribute grouping: complete
subgraph on every group, no edges from singleton groups, no edges for a
player whose key is missing, and group membership determined solely by
that grouping's key. -/
def completeGrouping {β : Type} [DecidableEq β] (ps : List (Nat × PlayerData))
    (key : PlayerData → Option β) : Prop :=
  (∀ k p q, p ∈ lookupGroup (attr_groups key ps) k →
      q ∈ lookupGroup (attr_groups key ps) k → p ≠ q →
      q ∈ grouped_conn (attr_groups key ps) p) ∧
  (∀ k p, (lookupGroup (attr_groups key ps) k).length = 1 →
      p ∈ lookupGroup (attr_groups key ps) k →
      grouped_conn (attr_groups key ps) p = []) ∧
  (∀ p d, (p, d) ∈ ps → key d = none →
      grouped_conn (attr_groups key ps) p = []) ∧
  (∀ p d k, (p, d) ∈ ps → d.name.isSome →
      (p ∈ lookupGroup (attr_groups key ps) k ↔ key d = some k))

theorem completeGrouping_of_nodup {β : Type} [DecidableEq β]
    {ps : List (Nat × PlayerData)} (hnd : (ps.map Prod.fst).Nodup)
    (key : PlayerData → Option β) : completeGrouping ps key := by
  refine ⟨?_, ?_, ?_, ?_⟩
  · intro k p q hp hq hpq
    have hlen := two_mem_length_gt_one hp hq hpq
    rw [grouped_conn_eq_of_mem_group hnd hp hlen, List.mem_filter]
    exact ⟨hq, by simp [Ne.symm hpq]⟩
  · intro k p hlen hp
    have hne : lookupGroup (attr_groups key ps) k ≠ [] := by
      intro h0
      rw [h0] at hp
      cases hp
    have hgmem : (k, lookupGroup (attr_groups key ps) k) ∈ attr_groups key ps :=
      lookupGroup_self_mem hne
    apply grouped_conn_eq_nil_of_small
    intro g hg hpg
    have hgeq : g = (k, lookupGroup (attr_groups key ps) k) :=
      attr_group_entry_unique hnd hg hgmem hpg hp
    rw [hgeq]
    exact le_of_eq hlen
  · intro p d hd hk
    exact grouped_conn_eq_nil_of_no_group (not_mem_group_of_key_none hnd hd hk)
  · intro p d k hd hname
    constructor
    · intro hp
      rcases mem_attr_group.mp hp with ⟨d', hd', hk'⟩
      have : d' = d :=
        player_data_eq_of_nodup hnd (List.mem_of_mem_filter hd') hd
      rw [← this]
      exact hk'
    · intro hk
      exact mem_attr_group.mpr
        ⟨d, List.mem_filter.mpr ⟨hd, by simpa using hname⟩, hk⟩

/-- C9: each of the four attribute groupings (exact country, exact
hand, height bucketed as floor(height/5)*5, exact birth year) turns
every group of more than one member into a complete subgraph, produces
no edges from singleton groups, and excludes a player missing the
relevant attribute from that grouping only — membership in each
grouping is determined solely by its own key, so such a player still
participates in the other three. -/
theorem C9_attribute_groupings (ps : List (Nat × PlayerData))
    (hnd : (ps.map Prod.fst).Nodup) :
    completeGrouping ps countryKey ∧ completeGrouping ps handKey ∧
    completeGrouping ps heightKey ∧ completeGrouping ps birthYearKey ∧
    (∀ d h, d.height = some h → h ≠ 0 → heightKey d = some (h / 5 * 5)) :=
  ⟨completeGrouping_of_nodup hnd countryKey,
    completeGrouping_of_nodup hnd handKey,
    completeGrouping_of_nodup hnd heightKey,
    completeGrouping_of_nodup hnd birthYearKey,
    fun d h hd h0 => by simp [heightKey, hd, h0]⟩

/-- Concrete input for the C9 witness: players 1 and 2 share country
"FRA", player 3 has no country but shares hand "R" with player 1. -/
def c9ps : List (Nat × PlayerData) :=
  [(1, ⟨some "Ana", some "FRA", some "R", none, none, none⟩),
   (2, ⟨some "Bea", some "FRA", some "L", none, none, none⟩),
   (3, ⟨some "Cyd", none, some "R", none, none, none⟩)]

/-- Witness for C9 at a concrete input: the country group is a complete
subgraph, and player 3 (no country) still joins the hand grouping. -/
theorem C9_attribute_groupings_witness :
    (c9ps.map Prod.fst).Nodup ∧
    (2 : Nat) ∈ grouped_conn (attr_groups countryKey c9ps) 1 ∧
    grouped_conn (attr_groups countryKey c9ps) 3 = [] ∧
    ((3 : Nat) ∈ lookupGroup (attr_groups handKey c9ps) "R" ↔
      handKey ⟨some "Cyd", none, some "R", none, none, none⟩ = some "R") :=
  ⟨by decide,
    (C9_attribute_groupings c9ps (by decide)).1.1 "FRA" 1 2
      (by decide) (by decide) (by decide),
    (C9_attribute_groupings c9ps (by decide)).1.2.2.1 3
      ⟨some "Cyd", none, some "R", none, none, none⟩ (by decide) (by decide),
    (C9_attribute_groupings c9ps (by decide)).2.1.2.2.2 3
      ⟨some "Cyd", none, some "R", none, none, none⟩ "R" (by decide) (by decide)⟩

/-- Concrete inputs for the C10 counterexample. -/
def c10ms_a : List MatchRecord := [⟨none, some 2, "", 0, "", "", ""⟩]

def c10ms_b : List MatchRecord :=
  [⟨none, some 2, "T", 1990, "", "", ""⟩, ⟨some 1, some 3, "T", 1990, "", "", ""⟩]

/-- Counterexample to C10 as stated: a stream with zero usable match
records (one record missing its winner id) does not abort — `main`
only tests emptiness of the loaded stream — and a record missing one id
still contributes `same_tournament` edges through its present side. -/
theorem C10_abort_condition_counterexample :
    c10ms_a.filter usable = [] ∧
    (main_output c10ms_a [] []).isSome = true ∧
    (c10ms_b.filter usable).length = 1 ∧
    (2 : Nat) ∈ (connection_record c10ms_b [] [] 1).same_tournament := by
  decide

theorem h2hStep_not_usable {acc : Nat → Finset Nat} {m : MatchRecord}
    (h : usable m = false) : h2hStep acc m = acc := by
  obtain ⟨wi, li, tn, yr, sf, rd, sc⟩ := m
  rcases wi with _ | w <;> rcases li with _ | l <;>
    first
      | rfl
      | simp [usable] at h

theorem detailStep_not_usable {acc : Nat → List MatchDetail} {m : MatchRecord}
    (h : usable m = false) : detailStep acc m = acc := by
  obtain ⟨wi, li, tn, yr, sf, rd, sc⟩ := m
  rcases wi with _ | w <;> rcases li with _ | l <;>
    first
      | rfl
      | simp [usable] at h

theorem foldl_h2hStep_filter_usable :
    ∀ (ms : List MatchRecord) (acc : Nat → Finset Nat),
      ms.foldl h2hStep acc = (ms.filter usable).foldl h2hStep acc := by
  intro ms
  induction ms with
  | nil => intro acc; rfl
  | cons m ms ih =>
    intro acc
    rcases hu : usable m with _ | _
    · rw [List.foldl_cons, List.filter_cons, hu, h2hStep_not_usable hu]
      exact ih acc
    · rw [List.foldl_cons, List.filter_cons, hu]
      simp only [List.foldl_cons]
      exact ih (h2hStep acc m)

theorem foldl_detailStep_filter_usable :
    ∀ (ms : List MatchRecord) (acc : Nat → List MatchDetail),
      ms.foldl detailStep acc = (ms.filter usable).foldl detailStep acc := by
  intro ms
  induction ms with
  | nil => intro acc; rfl
  | cons m ms ih =>
    intro acc
    rcases hu : usable m with _ | _
    · rw [List.foldl_cons, List.filter_cons, hu, detailStep_not_usable hu]
      exact ih acc
    · rw [List.foldl_cons, List.filter_cons, hu]
      simp only [List.foldl_cons]
      exact ih (detailStep acc m)

/-- C10 (amended): the pipeline aborts before writing any output exactly
when the loaded match stream is empty (not: when no record is usable),
and match records missing an id contribute no direct-opponent edge and
no match detail — they are silently dropped by the head-to-head
extractor (though their present side still joins tournament groups). -/
theorem C10_abort_and_skip (ms : List MatchRecord)
    (ps : List (Nat × PlayerData)) (gsf : List FinalRecord) :
    (main_output ms ps gsf = none ↔ ms = []) ∧
    (∀ p, h2h_connections ms p = h2h_connections (ms.filter usable) p) ∧
    (∀ p, match_details ms p = match_details (ms.filter usable) p) := by
  refine ⟨?_, ?_, ?_⟩
  · unfold main_output
    by_cases h : ms = [] <;> simp [h]
  · intro p
    rw [h2h_connections, h2h_connections, foldl_h2hStep_filter_usable]
  · intro p
    rw [match_details, match_details, foldl_detailStep_filter_usable]

/-- Concrete input for C1: named player 1 beats players 2..9, so only
player 1 reaches the 8-opponent threshold and the retained set is {1}. -/
def c1ms : List MatchRecord :=
  (List.range 8).map (fun i => ⟨some 1, some (i + 2), "", 0, "", "", ""⟩)

def c1ps : List (Nat × PlayerData) :=
  [(1, ⟨some "Ana", none, none, none, none, none⟩)]

/-- Counterexample to C1 as stated: vertex 1 is retained and vertex 2 is
not, yet the serialized connection record of vertex 1 still lists 2
among its direct opponents — `main` copies `connection_graph[player_id]`
unchanged, without filtering neighbor lists to the retained set. -/
theorem C1_truncation_filter_counterexample :
    (1 : Nat) ∈ top_player_ids c1ms c1ps ∧
    (2 : Nat) ∉ top_player_ids c1ms c1ps ∧
    (2 : Nat) ∈ (connAt (buildOutput c1ms c1ps []) 1).direct_opponents := by
  decide

/-- C1 (amended): after truncation the serializer keeps only retained
vertices as keys of the connection map, but each retained vertex's
relation-kind neighbor lists are copied unchanged from the full merged
graph (they are NOT filtered to the retained set); the match-detail
list (cut to its first 50 entries) and the raw `connections` count of
the candidate metadata are likewise based on the full pre-truncation
data. -/
theorem C1_retained_records_unfiltered (ms : List MatchRecord)
    (ps : List (Nat × PlayerData)) (gsf : List FinalRecord) (p : Nat)
    (hp : p ∈ top_player_ids ms ps) (hg : p ∈ connection_graph_keys ms ps) :
    (buildOutput ms ps gsf).connections p =
      some (connection_record ms ps gsf p) ∧
    (p ∈ h2h_keys ms →
      (buildOutput ms ps gsf).match_details p =
        some ((match_details ms p).take 50)) ∧
    (∀ i ∈ (buildOutput ms ps gsf).players,
      i.connections = (h2h_connections ms i.id).card) := by
  refine ⟨?_, ?_, ?_⟩
  · simp [buildOutput, hp, hg]
  · intro hk
    simp [buildOutput, hp, hk]
  · intro i hi
    have hi' : i ∈ top_players ms ps := hi
    exact (popular_fields (mem_top_players hi')).1

/-- Witness for C1 (amended) at a concrete input. -/
theorem C1_retained_records_unfiltered_witness :
    ((1 : Nat) ∈ top_player_ids c1ms c1ps ∧
      (1 : Nat) ∈ connection_graph_keys c1ms c1ps) ∧
    (buildOutput c1ms c1ps []).connections 1 =
      some (connection_record c1ms c1ps [] 1) :=
  ⟨⟨by decide, by decide⟩,
    (C1_retained_records_unfiltered c1ms c1ps [] 1 (by decide) (by decide)).1⟩

/-- Concrete input for C3: player 1 plays 51 matches (8 distinct
opponents, then repeats), with distinct years 1990..2040 in input
order. -/
def c3ms : List MatchRecord :=
  (List.range 51).map (fun i =>
    ⟨some 1, some (if i < 8 then i + 2 else 2), "", 1990 + i, "", "", ""⟩)

def c3ps : List (Nat × PlayerData) :=
  [(1, ⟨some "Ana", none, none, none, none, none⟩)]

/-- Counterexample to C3 as stated: with 51 accumulated match details,
the serialized list is the FIRST 50 entries (`[:50]`, the oldest), not
the most recent 50 — it differs from the suffix of length 50. -/
theorem C3_match_details_counterexample :
    (1 : Nat) ∈ top_player_ids c3ms c3ps ∧
    (match_details c3ms 1).length = 51 ∧
    mdAt (buildOutput c3ms c3ps []) 1 = (match_details c3ms 1).take 50 ∧
    mdAt (buildOutput c3ms c3ps []) 1 ≠
      (match_details c3ms 1).drop ((match_details c3ms 1).length - 50) := by
  decide

/-- C3 (amended): for every retained vertex the serialized match-detail
list has at most 50 entries and is the truncation of the full
oldest-first list to its FIRST (oldest) 50 entries. -/
theorem C3_match_details_truncation (ms : List MatchRecord)
    (ps : List (Nat × PlayerData)) (gsf : List FinalRecord) (p : Nat)
    (hp : p ∈ top_player_ids ms ps) (hk : p ∈ h2h_keys ms) :
    (buildOutput ms ps gsf).match_details p =
      some ((match_details ms p).take 50) ∧
    (mdAt (buildOutput ms ps gsf) p).length ≤ 50 := by
  have h1 : (buildOutput ms ps gsf).match_details p =
      some ((match_details ms p).take 50) := by
    simp [buildOutput, hp, hk]
  refine ⟨h1, ?_⟩
  rw [mdAt, h1, Option.getD_some, List.length_take]
  exact min_le_left _ _

/-- Witness for C3 (amended) at a concrete input. -/
theorem C3_match_details_truncation_witness :
    ((1 : Nat) ∈ top_player_ids c3ms c3ps ∧ (1 : Nat) ∈ h2h_keys c3ms) ∧
    (buildOutput c3ms c3ps []).match_details 1 =
      some ((match_details c3ms 1).take 50) :=
  ⟨⟨by decide, by decide⟩,
    (C3_match_details_truncation c3ms c3ps [] 1 (by decide) (by decide)).1⟩

/-- Every id with an `attribute_connections` entry belongs to a named
player: the grouping stage only sees `valid_players`. -/
theorem attrKeysOf_named {β : Type} [DecidableEq β]
    {key : PlayerData → Option β} {ps : List (Nat × PlayerData)} {p : Nat}
    (h : p ∈ attrKeysOf (attr_groups key ps)) :
    ∃ d, (p, d) ∈ ps ∧ d.name.isSome := by
  rcases mem_attrKeysOf.mp h with ⟨g, hg, hlen, hp⟩
  have hlk : p ∈ lookupGroup (attr_groups key ps) g.1 := by
    rw [lookupGroup_of_mem (attr_groups_keys_nodup key ps) hg]
    exact hp
  rcases mem_attr_group.mp hlk with ⟨d, hd, _⟩
  rcases List.mem_filter.mp hd with ⟨hmem, hname⟩
  exact ⟨d, hmem, by simpa using hname⟩

/-- Concrete input for the C4 counterexample. -/
def c4ms : List MatchRecord := [⟨some 1, some 2, "", 0, "", "", ""⟩]

/-- Counterexample to C4 as stated: with empty player data, ids 1 and 2
have no name anywhere, yet both become vertices of the merged graph via
the head-to-head extractor, and 2 appears in 1's direct-opponent
neighbor list. -/
theorem C4_nameless_vertices_counterexample :
    (1 : Nat) ∈ connection_graph_keys c4ms [] ∧
    List.lookup 1 ([] : List (Nat × PlayerData)) = none ∧
    (2 : Nat) ∈ (connection_record c4ms [] [] 1).direct_opponents := by
  decide

/-- C4 (amended): the name requirement governs only the attribute
grouping and the candidate list — every `attribute_connections` entry
and every candidate belongs to a named player, and a nameless player's
four attribute neighbor lists are empty — but nameless ids do enter the
merged graph as vertices and neighbors through the match-derived
(head-to-head and tournament) extractors. -/
theorem C4_nameless_excluded_partially (ms : List MatchRecord)
    (ps : List (Nat × PlayerData)) (gsf : List FinalRecord) :
    (∀ p ∈ attribute_keys ps, ∃ d, (p, d) ∈ ps ∧ d.name.isSome) ∧
    (∀ i ∈ (buildOutput ms ps gsf).players,
      ∃ d, (i.id, d) ∈ ps ∧ d.name.isSome) ∧
    (∀ p, (∀ d, (p, d) ∈ ps → d.name = none) →
      (connection_record ms ps gsf p).same_country = [] ∧
      (connection_record ms ps gsf p).same_hand = [] ∧
      (connection_record ms ps gsf p).similar_height = [] ∧
      (connection_record ms ps gsf p).same_birth_year = []) := by
  refine ⟨?_, ?_, ?_⟩
  · intro p hp
    rcases Finset.mem_union.mp hp with hp' | hp'
    · rcases Finset.mem_union.mp hp' with hp'' | hp''
      · rcases Finset.mem_union.mp hp'' with hp3 | hp3
        · exact attrKeysOf_named hp3
        · exact attrKeysOf_named hp3
      · exact attrKeysOf_named hp''
    · exact attrKeysOf_named hp'
  · intro i hi
    have hi' : i ∈ top_players ms ps := hi
    rcases (popular_fields (mem_top_players hi')).2.2 with ⟨d, hd, hname⟩
    exact ⟨d, hd, by simp [hname]⟩
  · intro p hnameless
    simp only [connection_record, same_country_conn, same_hand_conn,
      similar_height_conn, same_birth_year_conn]
    exact ⟨grouped_conn_eq_nil_of_no_group (not_mem_group_of_nameless hnameless),
      grouped_conn_eq_nil_of_no_group (not_mem_group_of_nameless hnameless),
      grouped_conn_eq_nil_of_no_group (not_mem_group_of_nameless hnameless),
      grouped_conn_eq_nil_of_no_group (not_mem_group_of_nameless hnameless)⟩

end TennisWeb
